import Mathlib

/-!
Verification of the uncertainty-propagation engine of `Calculator.py`.

The numeric type of the Python program (floats standing for reals) is
modelled by exact arithmetic: `ℚ` for the significant-figure rounder
(Python's `round` half-to-even on decimal places) and `ℝ` for the
evaluator / propagation pipeline (which involves `pi`, `e` and square
roots).  Fallible evaluation is modelled with `Except`.
-/

namespace UncertaintyCalc

/-! ## Significant-figure rounding (`round_to_n_sig_figs`, Calculator.py lines 4-22) -/

/-- Round-half-to-even to the nearest integer: the model of Python's
built-in `round(q)` on an exact rational input. -/
def rhe (q : ℚ) : ℤ :=
  if q - ⌊q⌋ < 1/2 then ⌊q⌋
  else if 1/2 < q - ⌊q⌋ then ⌊q⌋ + 1
  else if 2 ∣ ⌊q⌋ then ⌊q⌋ else ⌊q⌋ + 1

/-- Python's `round(x, d)`: round to `d` decimal places (`d` may be
negative), half-to-even. -/
def roundToPlaces (x : ℚ) (d : ℤ) : ℚ :=
  (rhe (x * 10 ^ d) : ℚ) / 10 ^ d

/-- `round_to_n_sig_figs` from Calculator.py lines 4-22: round `value` to
`n` total significant figures.  `magnitude = math.floor(math.log10(abs(value)))`
is `Int.log 10 |value|`; the code then calls
`round(value, -(magnitude - n + 1))`. -/
def round_to_n_sig_figs (value : ℚ) (n : ℕ) : ℚ :=
  if value = 0 then 0
  else
    let magnitude : ℤ := Int.log 10 |value|
    let decimal_places : ℤ := magnitude - n + 1
    roundToPlaces value (-decimal_places)

/-! ## Expression trees (the sympy expressions produced by `get_equation`) -/

/-- Expression trees over numeric literals, variables, the constants
`pi` and `e`, and the operators the parser produces (`convert_xor` turns
`^` into power).  `log` is included because the exact derivative of a
general power uses it. -/
inductive Expr where
  | num (q : ℚ)
  | var (name : String)
  | pi
  | e
  | neg (a : Expr)
  | add (a b : Expr)
  | sub (a b : Expr)
  | mul (a b : Expr)
  | div (a b : Expr)
  | pow (a b : Expr)
  | log (a : Expr)
deriving DecidableEq

/-- Typed evaluation failures: an unbound variable, or an operation that
is undefined over the reals at the given inputs (the Python code's
evaluation raises an exception there, caught wholesale by the caller). -/
inductive EvalError where
  | unboundVariable
  | domainError
deriving DecidableEq

/-- First-match lookup in an association list; models a Python dict
(whose keys are unique). -/
def lookup (env : List (String × ℝ)) (x : String) : Option ℝ :=
  match env with
  | [] => none
  | (k, v) :: rest => if k = x then some v else lookup rest x

open scoped Classical in
/-- Evaluation of an expression at a numeric binding for each variable —
the model of `expr.subs(values)` followed by `float(...)`.  Division by
zero, a log of a non-positive number, `0` raised to a negative power and
a negative base raised to a non-integer power are undefined over the
reals and fail with `domainError`. -/
noncomputable def eval : Expr → List (String × ℝ) → Except EvalError ℝ
  | .num q, _ => .ok (q : ℝ)
  | .var x, env =>
    match lookup env x with
    | some v => .ok v
    | none => .error .unboundVariable
  | .pi, _ => .ok Real.pi
  | .e, _ => .ok (Real.exp 1)
  | .neg a, env => do
    let va ← eval a env
    return -va
  | .add a b, env => do
    let va ← eval a env
    let vb ← eval b env
    return va + vb
  | .sub a b, env => do
    let va ← eval a env
    let vb ← eval b env
    return va - vb
  | .mul a b, env => do
    let va ← eval a env
    let vb ← eval b env
    return va * vb
  | .div a b, env => do
    let va ← eval a env
    let vb ← eval b env
    if vb = 0 then .error .domainError else .ok (va / vb)
  | .pow a b, env => do
    let va ← eval a env
    let vb ← eval b env
    if va = 0 ∧ vb < 0 then .error .domainError
    else if va < 0 ∧ ¬ (∃ k : ℤ, vb = (k : ℝ)) then .error .domainError
    else .ok (va ^ vb)
  | .log a, env => do
    let va ← eval a env
    if va ≤ 0 then .error .domainError else .ok (Real.log va)

/-- Exact symbolic differentiation with respect to a named variable —
the model of `sympy.diff(expr, var)`: linearity, product rule, quotient
rule, and the generalized power rule
`(f^g)' = f^g * (g' * log f + g * f' / f)`. -/
def diffE : Expr → String → Expr
  | .num _, _ => .num 0
  | .pi, _ => .num 0
  | .e, _ => .num 0
  | .var y, x => .num (if y = x then 1 else 0)
  | .neg a, x => .neg (diffE a x)
  | .add a b, x => .add (diffE a x) (diffE b x)
  | .sub a b, x => .sub (diffE a x) (diffE b x)
  | .mul a b, x => .add (.mul (diffE a x) b) (.mul a (diffE b x))
  | .div a b, x => .div (.sub (.mul (diffE a x) b) (.mul a (diffE b x))) (.mul b b)
  | .pow a b, x =>
    .mul (.pow a b) (.add (.mul (diffE b x) (.log a)) (.div (.mul b (diffE a x)) a))
  | .log a, x => .div (diffE a x) a

/-- Free variables of an expression (`expr.free_symbols`); the constants
`pi` and `e` are not variables. -/
def freeVars : Expr → List String
  | .num _ => []
  | .pi => []
  | .e => []
  | .var x => [x]
  | .neg a => freeVars a
  | .log a => freeVars a
  | .add a b => freeVars a ++ freeVars b
  | .sub a b => freeVars a ++ freeVars b
  | .mul a b => freeVars a ++ freeVars b
  | .div a b => freeVars a ++ freeVars b
  | .pow a b => freeVars a ++ freeVars b

/-! ## Formula-mode propagation (`calculate_uncertainty`, lines 63-86, and
the fractional-uncertainty step of `main`, lines 190-201) -/

/-- A binding gives each variable its measured value and uncertainty; the
value-only projection is the `values` dict passed to `subs`. -/
def valueBindings (bs : List (String × ℝ × ℝ)) : List (String × ℝ) :=
  bs.map fun p => (p.1, p.2.1)

/-- The accumulation loop of `calculate_uncertainty` (lines 72-82): for
each bound variable, evaluate the symbolic derivative at the values and
add `(partial_val * sigma) ** 2` to the running variance. -/
noncomputable def varianceFold (expr : Expr) (env : List (String × ℝ)) :
    List (String × ℝ × ℝ) → ℝ → Except EvalError ℝ
  | [], acc => .ok acc
  | p :: rest, acc => do
    let pd ← eval (diffE expr p.1) env
    varianceFold expr env rest (acc + (pd * p.2.2) ^ 2)

/-- `calculate_uncertainty` (lines 63-86): the value of the expression at
the measured values together with `variance ** 0.5`. -/
noncomputable def calculate_uncertainty (expr : Expr)
    (bindings : List (String × ℝ × ℝ)) : Except EvalError (ℝ × ℝ) := do
  let calculated_value ← eval expr (valueBindings bindings)
  let variance ← varianceFold expr (valueBindings bindings) bindings 0
  return (calculated_value, variance ^ ((1 : ℝ)/2))

/-- The formula-mode result triple: `calculate_uncertainty` followed by
the fractional-uncertainty computation of `main` (lines 193-196). -/
noncomputable def propagate (expr : Expr) (bindings : List (String × ℝ × ℝ)) :
    Except EvalError (ℝ × ℝ × ℝ) := do
  let r ← calculate_uncertainty expr bindings
  let frac_unc := if r.1 ≠ 0 then r.2 / |r.1| else 0
  return (r.1, r.2, frac_unc)

/-- Evaluate the partial derivative of `expr` with respect to each bound
variable in turn (the specification's step 2, one derivative per
variable). -/
noncomputable def evalDerivs (expr : Expr) (env : List (String × ℝ)) :
    List (String × ℝ × ℝ) → Except EvalError (List ℝ)
  | [] => .ok []
  | p :: rest => do
    let d ← eval (diffE expr p.1) env
    let ds ← evalDerivs expr env rest
    return d :: ds

/-- The propagation algorithm exactly as the specification words it:
evaluate the expression, evaluate `∂expr/∂x` for each bound variable `x`
at the same value-bindings, sum `partial_x^2 * uncertainty_x^2` with no
cross terms, take the square root, and divide by `|value|` (or return
`0` at `value = 0`) for the fractional uncertainty. -/
noncomputable def propagateSpec (expr : Expr) (bindings : List (String × ℝ × ℝ)) :
    Except EvalError (ℝ × ℝ × ℝ) := do
  let value ← eval expr (valueBindings bindings)
  let ds ← evalDerivs expr (valueBindings bindings) bindings
  let varianceSum := ((ds.zip bindings).map fun q => q.1 ^ 2 * q.2.2.2 ^ 2).sum
  let absoluteUncertainty := Real.sqrt varianceSum
  return (value, absoluteUncertainty,
    if value = 0 then 0 else absoluteUncertainty / |value|)

/-- The constant branch of equation mode (`main` lines 181-186): when the
expression has no free variables the program evaluates it with no
bindings and reports zero absolute and fractional uncertainty.  No
significant-figure rounding is applied in this branch. -/
noncomputable def equationModeConst (expr : Expr) : Except EvalError (ℝ × ℝ × ℝ) := do
  let val ← eval expr []
  return (val, 0, 0)

/-- The left-associated sum expression `x1 + x2 + ... + xn` over a list
of variable names. -/
def sumExpr : List String → Expr
  | [] => .num 0
  | x :: xs => xs.foldl (fun a y => .add a (.var y)) (.var x)

/-! ## Values-only mode (`values_only_mode`, lines 88-154) -/

/-- The arity contract of the closed-form combiner: the interactive loop
refuses an empty value list (line 104) and a mismatched uncertainty list
(line 114); the specification types this refusal as `ArityMismatchError`. -/
inductive ClosedFormError where
  | arityMismatch
deriving DecidableEq

open scoped Classical in
/-- Closed-form SUM (lines 121-125 and 141-149): the value is the plain
sum, the absolute uncertainty is the direct (non-quadrature) sum of the
uncertainties. -/
noncomputable def combineSum (values uncertainties : List ℝ) :
    Except ClosedFormError (ℝ × ℝ × ℝ) :=
  if values = [] ∨ values.length ≠ uncertainties.length then .error .arityMismatch
  else
    let val := values.sum
    let abs_unc := uncertainties.sum
    .ok (val, abs_unc, if val ≠ 0 then abs_unc / |val| else 0)

open scoped Classical in
/-- Closed-form PRODUCT (lines 126-149): the value is the product, the
relative uncertainties are combined in quadrature with zero-valued terms
skipped (the `if v != 0` guard on line 135), and the absolute
uncertainty is `abs(val) * rel_unc_sq ** 0.5`. -/
noncomputable def combineProduct (values uncertainties : List ℝ) :
    Except ClosedFormError (ℝ × ℝ × ℝ) :=
  if values = [] ∨ values.length ≠ uncertainties.length then .error .arityMismatch
  else
    let val := values.prod
    let rel_unc_sq := (values.zip uncertainties).foldl
      (fun acc p => if p.1 ≠ 0 then acc + (p.2 / |p.1|) ^ 2 else acc) 0
    let abs_unc := |val| * rel_unc_sq ^ ((1 : ℝ)/2)
    .ok (val, abs_unc, if val ≠ 0 then abs_unc / |val| else 0)

/-! ## Lemmas about round-half-to-even -/

/-- Rounding an exact integer is the identity. -/
lemma rhe_intCast (k : ℤ) : rhe (k : ℚ) = k := by
  simp [rhe]

lemma floor_le_rhe (q : ℚ) : ⌊q⌋ ≤ rhe q := by
  unfold rhe
  split_ifs <;> omega

lemma rhe_le_floor_add_one (q : ℚ) : rhe q ≤ ⌊q⌋ + 1 := by
  unfold rhe
  split_ifs <;> omega

/-- Round-half-to-even is symmetric about zero. -/
lemma rhe_neg (q : ℚ) : rhe (-q) = -rhe q := by
  by_cases hint : q - ⌊q⌋ = 0
  · have hq : q = (⌊q⌋ : ℚ) := by linarith
    rw [hq, show (-(⌊q⌋:ℚ)) = ((-⌊q⌋ : ℤ) : ℚ) by push_cast ; ring, rhe_intCast, rhe_intCast]
  · have h0 : 0 < q - ⌊q⌋ :=
      lt_of_le_of_ne (by simp [Int.floor_le q]) (Ne.symm hint)
    have h1 : q - ⌊q⌋ < 1 := by
      have := Int.lt_floor_add_one q
      linarith
    have hfl : ⌊-q⌋ = -⌊q⌋ - 1 := by
      rw [Int.floor_eq_iff]
      push_cast
      constructor <;> linarith
    unfold rhe
    rw [hfl]
    push_cast
    split_ifs <;> first | omega | linarith

/-- Characterization of `Int.log 10` by the enclosing powers of ten. -/
lemma log10_unique {v : ℚ} {m : ℤ} (h0 : 0 < v) (h1 : (10:ℚ) ^ m ≤ v)
    (h2 : v < (10:ℚ) ^ (m + 1)) : Int.log 10 v = m := by
  have hb : 1 < (10 : ℕ) := by norm_num
  have hle : m ≤ Int.log 10 v := by
    rw [← Int.zpow_le_iff_le_log hb h0]
    exact_mod_cast h1
  have hlt : Int.log 10 v < m + 1 := by
    rw [← Int.lt_zpow_iff_log_lt hb h0]
    exact_mod_cast h2
  omega

/-- Unfolding of the significant-figure rounder away from zero:
`round(value, -(magnitude - n + 1))` rounds to `n - 1 - magnitude`
decimal places. -/
lemma roundSig_of_ne_zero (v : ℚ) (n : ℕ) (hv : v ≠ 0) :
    round_to_n_sig_figs v n
      = (rhe (v * 10 ^ ((n : ℤ) - 1 - Int.log 10 |v|)) : ℚ)
        / 10 ^ ((n : ℤ) - 1 - Int.log 10 |v|) := by
  rw [round_to_n_sig_figs, if_neg hv]
  have h : -(Int.log 10 |v| - (n:ℤ) + 1) = (n:ℤ) - 1 - Int.log 10 |v| := by ring
  simp only [roundToPlaces, h]

lemma roundSig_neg (v : ℚ) (n : ℕ) :
    round_to_n_sig_figs (-v) n = -round_to_n_sig_figs v n := by
  by_cases hv : v = 0
  · simp [hv, round_to_n_sig_figs]
  · rw [roundSig_of_ne_zero _ _ hv, roundSig_of_ne_zero _ _ (neg_ne_zero.mpr hv),
      abs_neg, neg_mul, rhe_neg]
    push_cast
    ring

lemma zpow10_pos (d : ℤ) : (0:ℚ) < 10 ^ d := by positivity

/-- Idempotence of significant-figure rounding for positive inputs: the
rounded value `k / 10 ^ d` either keeps the magnitude of `v`, in which
case re-rounding hits the integer `k` exactly, or is the next power of
ten, which re-rounds to itself. -/
lemma roundSig_pos_idem {v : ℚ} {n : ℕ} (hn : 1 ≤ n) (hv : 0 < v) :
    round_to_n_sig_figs (round_to_n_sig_figs v n) n = round_to_n_sig_figs v n := by
  have hten : (1:ℕ) < 10 := by norm_num
  have h10 : (10:ℚ) ≠ 0 := by norm_num
  have habs : |v| = v := abs_of_pos hv
  set m : ℤ := Int.log 10 v with hm
  set d : ℤ := (n:ℤ) - 1 - m with hd
  set x : ℚ := v * 10 ^ d with hx
  have hx0 : 0 < x := mul_pos hv (zpow10_pos d)
  have hv_low : (10:ℚ) ^ m ≤ v := by
    have := Int.zpow_log_le_self (b := 10) hten hv
    simpa using this
  have hv_high : v < (10:ℚ) ^ (m + 1) := by
    have := Int.lt_zpow_succ_log_self (b := 10) hten v
    simpa using this
  have hsplit : (10:ℚ) ^ ((n:ℤ) - 1) = 10 ^ m * 10 ^ d := by
    rw [← zpow_add₀ h10]
    congr 1
    omega
  have hsplit2 : (10:ℚ) ^ (n:ℤ) = 10 ^ (m+1) * 10 ^ d := by
    rw [← zpow_add₀ h10]
    congr 1
    omega
  have hx_low : (10:ℚ) ^ ((n:ℤ) - 1) ≤ x := by
    rw [hsplit, hx]
    exact mul_le_mul_of_nonneg_right hv_low (le_of_lt (zpow10_pos d))
  have hx_high : x < (10:ℚ) ^ (n:ℤ) := by
    rw [hsplit2, hx]
    exact mul_lt_mul_of_pos_right hv_high (zpow10_pos d)
  set k : ℤ := rhe x with hk
  have hcast1 : (((10:ℤ) ^ (n-1 : ℕ) : ℤ) : ℚ) = (10:ℚ) ^ ((n:ℤ)-1) := by
    push_cast
    rw [← zpow_natCast]
    congr 1
    omega
  have hcast2 : (((10:ℤ) ^ (n : ℕ) : ℤ) : ℚ) = (10:ℚ) ^ (n:ℤ) := by
    push_cast
    rw [← zpow_natCast]
  have hk_low : (10:ℚ) ^ ((n:ℤ) - 1) ≤ (k:ℚ) := by
    rw [← hcast1]
    have h1 : ((10:ℤ) ^ (n-1 : ℕ)) ≤ ⌊x⌋ := Int.le_floor.mpr (by rw [hcast1]; exact hx_low)
    exact_mod_cast le_trans h1 (floor_le_rhe x)
  have hk_high : (k:ℚ) ≤ (10:ℚ) ^ (n:ℤ) := by
    rw [← hcast2]
    have h1 : ⌊x⌋ < (10:ℤ) ^ (n : ℕ) := Int.floor_lt.mpr (by rw [hcast2]; exact hx_high)
    have h2 : k ≤ ⌊x⌋ + 1 := rhe_le_floor_add_one x
    exact_mod_cast le_trans h2 (Int.lt_iff_add_one_le.mp h1)
  have hk_pos : (0:ℚ) < (k:ℚ) := lt_of_lt_of_le (zpow10_pos _) hk_low
  set r : ℚ := (k:ℚ) / 10 ^ d with hr
  have hround : round_to_n_sig_figs v n = r := by
    rw [roundSig_of_ne_zero _ _ (ne_of_gt hv), habs, ← hm, ← hd, ← hx, ← hk, ← hr]
  have hr_pos : 0 < r := div_pos hk_pos (zpow10_pos d)
  rw [hround]
  rcases lt_or_eq_of_le hk_high with hcase | hcase
  · have hr_low : (10:ℚ) ^ m ≤ r := by
      rw [hr, le_div_iff₀ (zpow10_pos d), ← zpow_add₀ h10]
      calc (10:ℚ) ^ (m + d) = 10 ^ ((n:ℤ) - 1) := by congr 1; omega
        _ ≤ (k:ℚ) := hk_low
    have hr_high : r < (10:ℚ) ^ (m+1) := by
      rw [hr, div_lt_iff₀ (zpow10_pos d), ← zpow_add₀ h10]
      calc (k:ℚ) < 10 ^ (n:ℤ) := hcase
        _ = 10 ^ (m + 1 + d) := by congr 1; omega
    have hlog : Int.log 10 |r| = m := by
      rw [abs_of_pos hr_pos]
      exact log10_unique hr_pos hr_low hr_high
    rw [roundSig_of_ne_zero _ _ (ne_of_gt hr_pos), hlog, ← hd]
    have : r * 10 ^ d = (k:ℚ) := div_mul_cancel₀ _ (ne_of_gt (zpow10_pos d))
    rw [this, rhe_intCast]
  · have hreq : r = (10:ℚ) ^ (m+1) := by
      rw [hr, hcase, div_eq_iff (ne_of_gt (zpow10_pos d)), ← zpow_add₀ h10]
      congr 1
      omega
    have hlog : Int.log 10 |r| = m + 1 := by
      rw [abs_of_pos hr_pos, hreq]
      apply log10_unique (zpow10_pos _) (le_refl _)
      have h1 : (0:ℚ) < 10 ^ (m+1) := zpow10_pos _
      calc (10:ℚ) ^ (m+1) = 10 ^ (m+1) * 1 := by ring
        _ < 10 ^ (m+1) * 10 := by nlinarith
        _ = 10 ^ (m+1+1) := by rw [zpow_add₀ h10 (m+1) 1]; norm_num
    rw [roundSig_of_ne_zero _ _ (ne_of_gt hr_pos), hlog]
    have hexp : (n:ℤ) - 1 - (m+1) = d - 1 := by omega
    rw [hexp]
    have hprod : r * 10 ^ (d-1) = (10:ℚ) ^ ((n:ℤ) - 1) := by
      rw [hreq, ← zpow_add₀ h10]
      congr 1
      omega
    rw [hprod, ← hcast1, rhe_intCast, hcast1, hreq]
    rw [div_eq_iff (ne_of_gt (zpow10_pos _)), ← zpow_add₀ h10]
    congr 1
    omega

/-! ## Lemmas about the propagation pipeline -/

@[simp] lemma ok_bind {ε α β : Type} (a : α) (f : α → Except ε β) :
    (Except.ok a >>= f) = f a := rfl

@[simp] lemma error_bind {ε α β : Type} (err : ε) (f : α → Except ε β) :
    ((Except.error err : Except ε α) >>= f) = .error err := rfl

@[simp] lemma pure_ok {ε α : Type} (a : α) : (pure a : Except ε α) = .ok a := rfl

/-- Python's `x ** 0.5` is the square root (`Real.sqrt_eq_rpow` holds for
every real, negative inputs giving `0` on both sides). -/
lemma rpow_half_eq_sqrt (x : ℝ) : x ^ ((1:ℝ)/2) = Real.sqrt x :=
  (Real.sqrt_eq_rpow x).symm

lemma rpow_inv_two_eq_sqrt (x : ℝ) : x ^ ((2:ℝ)⁻¹) = Real.sqrt x := by
  rw [← one_div, rpow_half_eq_sqrt]

/-- The variance accumulation loop computes, over the evaluated partial
derivatives, the sum of squared derivative times squared uncertainty. -/
lemma varianceFold_eq (E : Expr) (env : List (String × ℝ))
    (l : List (String × ℝ × ℝ)) : ∀ acc : ℝ,
    varianceFold E env l acc
      = (evalDerivs E env l).map
          (fun ds => acc + ((ds.zip l).map fun q => q.1 ^ 2 * q.2.2.2 ^ 2).sum) := by
  induction l with
  | nil =>
    intro acc
    simp [varianceFold, evalDerivs, Except.map]
  | cons p l ih =>
    intro acc
    simp only [varianceFold, evalDerivs]
    cases h : eval (diffE E p.1) env with
    | error err => simp [h, Except.map]
    | ok pd =>
      simp only [h, ok_bind]
      rw [ih (acc + (pd * p.2.2) ^ 2)]
      cases h2 : evalDerivs E env l with
      | error err => simp [h2, Except.map]
      | ok ds =>
        simp [h2, Except.map]
        ring

/-- The value-bindings dict ignores the uncertainty component. -/
lemma valueBindings_signflip (pre post : List (String × ℝ × ℝ)) (x : String)
    (v u u' : ℝ) :
    valueBindings (pre ++ (x, v, u) :: post)
      = valueBindings (pre ++ (x, v, u') :: post) := by
  simp [valueBindings]

/-- Negating one uncertainty does not change the accumulated variance:
the flipped term enters as `(pd * -u) ^ 2 = (pd * u) ^ 2`. -/
lemma varianceFold_signflip (E : Expr) (env : List (String × ℝ)) (x : String)
    (v u : ℝ) (post : List (String × ℝ × ℝ)) :
    ∀ (pre : List (String × ℝ × ℝ)) (acc : ℝ),
    varianceFold E env (pre ++ (x, v, u) :: post) acc
      = varianceFold E env (pre ++ (x, v, -u) :: post) acc := by
  intro pre
  induction pre with
  | nil =>
    intro acc
    simp only [List.nil_append, varianceFold]
    cases h : eval (diffE E x) env with
    | error err => simp [h]
    | ok pd =>
      simp only [h, ok_bind]
      have harg : (pd * -u) ^ 2 = (pd * u) ^ 2 := by ring
      rw [harg]
  | cons q pre ih =>
    intro acc
    simp only [List.cons_append, varianceFold]
    cases h : eval (diffE E q.1) env with
    | error err => simp [h]
    | ok pd => simp [h, ih]

/-! ## Lemmas for the sum expression of formula mode -/

/-- In a duplicate-free association list every entry is found by `lookup`. -/
lemma lookup_of_nodup (env : List (String × ℝ))
    (hnd : (env.map Prod.fst).Nodup) :
    ∀ p ∈ env, lookup env p.1 = some p.2 := by
  induction env with
  | nil => simp
  | cons q env ih =>
    intro p hp
    rcases List.mem_cons.mp hp with rfl | hp2
    · simp [lookup]
    · have hq : q.1 ≠ p.1 := by
        intro hcontra
        have : p.1 ∈ env.map Prod.fst := List.mem_map_of_mem Prod.fst hp2
        rw [← hcontra] at this
        exact (List.nodup_cons.mp hnd).1 this
      simp only [lookup, if_neg hq]
      exact ih (List.nodup_cons.mp hnd).2 p hp2

/-- Evaluating a left-associated chain of additions of variables adds the
looked-up value of each variable to the seed expression. -/
lemma eval_addChain (env : List (String × ℝ)) :
    ∀ (items : List (String × ℝ)) (a : Expr) (va : ℝ),
    eval a env = .ok va → (∀ p ∈ items, lookup env p.1 = some p.2) →
    eval ((items.map Prod.fst).foldl (fun acc y => .add acc (.var y)) a) env
      = .ok (va + (items.map Prod.snd).sum) := by
  intro items
  induction items with
  | nil =>
    intro a va ha _
    simpa using ha
  | cons p items ih =>
    intro a va ha hlook
    have hstep : eval (Expr.add a (.var p.1)) env = .ok (va + p.2) := by
      simp [eval, ha, hlook p (List.mem_cons_self p items)]
    have := ih (Expr.add a (.var p.1)) (va + p.2) hstep
      (fun q hq => hlook q (List.mem_cons_of_mem p hq))
    simpa [add_assoc] using this

/-- The derivative of a chain of additions of variables evaluates to the
seed's derivative plus one for each occurrence of the variable. -/
lemma eval_diff_addChain (env : List (String × ℝ)) (x : String) :
    ∀ (names : List String) (a : Expr) (s : ℝ),
    eval (diffE a x) env = .ok s →
    eval (diffE (names.foldl (fun acc y => .add acc (.var y)) a) x) env
      = .ok (s + (names.map fun y => if y = x then (1:ℝ) else 0).sum) := by
  intro names
  induction names with
  | nil =>
    intro a s ha
    simpa using ha
  | cons y names ih =>
    intro a s ha
    have hstep : eval (diffE (Expr.add a (.var y)) x) env
        = .ok (s + if y = x then (1:ℝ) else 0) := by
      simp [eval, diffE, ha, apply_ite (fun q : ℚ => (q : ℝ))]
    have := ih (Expr.add a (.var y)) _ hstep
    simpa [add_assoc] using this

/-- In a duplicate-free list of names containing `x`, exactly one
indicator contributes. -/
lemma indicator_sum (x : String) :
    ∀ (names : List String), names.Nodup → x ∈ names →
    (names.map fun y => if y = x then (1:ℝ) else 0).sum = 1 := by
  intro names
  induction names with
  | nil => simp
  | cons y names ih =>
    intro hnd hmem
    have hnd2 := List.nodup_cons.mp hnd
    rcases List.mem_cons.mp hmem with rfl | hmem2
    · have hzero : (names.map fun z => if z = x then (1:ℝ) else 0).sum = 0 := by
        apply List.sum_eq_zero
        intro r hr
        rcases List.mem_map.mp hr with ⟨z, hz, rfl⟩
        have hne : z ≠ x := fun hcontra => hnd2.1 (hcontra ▸ hz)
        simp [hne]
      simp [hzero]
    · have hyx : y ≠ x := fun hcontra => hnd2.1 (hcontra ▸ hmem2)
      simp [hyx, ih hnd2.2 hmem2]

/-- Projecting the value bindings keeps the variable names. -/
lemma valueBindings_fst (bs : List (String × ℝ × ℝ)) :
    (valueBindings bs).map Prod.fst = bs.map fun p => p.1 := by
  simp [valueBindings]

/-- Evaluating the sum formula `x1 + ... + xn` at the value bindings of a
duplicate-free binding list yields the sum of the values. -/
lemma eval_sumExpr (bs : List (String × ℝ × ℝ))
    (hnd : ((bs.map fun p => p.1).Nodup)) :
    bs ≠ [] →
    eval (sumExpr (bs.map fun p => p.1)) (valueBindings bs)
      = .ok ((bs.map fun p => p.2.1).sum) := by
  cases bs with
  | nil => intro h; exact absurd rfl h
  | cons p rest =>
    intro _
    have hnd' : ((valueBindings (p :: rest)).map Prod.fst).Nodup := by
      rw [valueBindings_fst]
      exact hnd
    have hhead : eval (Expr.var p.1) (valueBindings (p :: rest)) = .ok p.2.1 := by
      have := lookup_of_nodup _ hnd' (p.1, p.2.1) (by simp [valueBindings])
      simp [eval, this]
    have hlook : ∀ q ∈ valueBindings rest,
        lookup (valueBindings (p :: rest)) q.1 = some q.2 := by
      intro q hq
      exact lookup_of_nodup _ hnd' q (by simp [valueBindings] at hq ⊢; tauto)
    have hchain := eval_addChain (valueBindings (p :: rest)) (valueBindings rest)
      (Expr.var p.1) p.2.1 hhead hlook
    have hfst : (valueBindings rest).map Prod.fst = rest.map fun q => q.1 :=
      valueBindings_fst rest
    have hsnd : (valueBindings rest).map Prod.snd = rest.map fun q => q.2.1 := by
      simp [valueBindings]
    rw [hfst, hsnd] at hchain
    simpa [sumExpr] using hchain

/-- The partial derivative of the sum formula with respect to any bound
variable evaluates to `1` (duplicate-free names). -/
lemma eval_diff_sumExpr (names : List String) (hnd : names.Nodup) (x : String)
    (hx : x ∈ names) (env : List (String × ℝ)) :
    eval (diffE (sumExpr names) x) env = .ok 1 := by
  cases names with
  | nil => simp at hx
  | cons y names =>
    have hhead : eval (diffE (Expr.var y) x) env
        = .ok (if y = x then (1:ℝ) else 0) := by
      simp [eval, diffE, apply_ite (fun q : ℚ => (q : ℝ))]
    have hchain := eval_diff_addChain env x names (Expr.var y) _ hhead
    have hsum := indicator_sum x (y :: names) hnd hx
    simp only [List.map_cons, List.sum_cons] at hsum
    rw [show ((if y = x then (1:ℝ) else 0)
        + (names.map fun z => if z = x then (1:ℝ) else 0).sum) = 1 from hsum] at hchain
    simpa [sumExpr] using hchain

/-- When every partial derivative evaluates to `1` the variance loop sums
the squared uncertainties. -/
lemma varianceFold_of_derivs_one (E : Expr) (env : List (String × ℝ)) :
    ∀ (l : List (String × ℝ × ℝ)) (acc : ℝ),
    (∀ p ∈ l, eval (diffE E p.1) env = .ok 1) →
    varianceFold E env l acc = .ok (acc + (l.map fun p => p.2.2 ^ 2).sum) := by
  intro l
  induction l with
  | nil =>
    intro acc _
    simp [varianceFold]
  | cons p l ih =>
    intro acc hall
    simp only [varianceFold, hall p (List.mem_cons_self p l), ok_bind]
    rw [ih _ (fun q hq => hall q (List.mem_cons_of_mem p hq))]
    simp [add_assoc]

/-- The closed-form relative-uncertainty loop computes the guarded sum of
squared relative uncertainties. -/
lemma relFold_eq : ∀ (l : List (ℝ × ℝ)) (acc : ℝ),
    l.foldl (fun acc p => if p.1 ≠ 0 then acc + (p.2 / |p.1|) ^ 2 else acc) acc
      = acc + (l.map fun p => if p.1 = 0 then 0 else (p.2 / |p.1|) ^ 2).sum := by
  intro l
  induction l with
  | nil => intro acc; simp
  | cons p l ih =>
    intro acc
    simp only [List.foldl_cons]
    by_cases hp : p.1 = 0
    · rw [if_neg (by simp [hp]), ih acc]
      simp [hp]
    · rw [if_pos hp, ih (acc + (p.2 / |p.1|) ^ 2)]
      simp [hp, add_assoc]

/-! ## Closed-form results on valid input -/

open scoped Classical in
/-- On a non-empty list with matching lengths the closed-form SUM returns
the direct sums. -/
lemma combineSum_ok (values uncertainties : List ℝ)
    (hne : values ≠ []) (hlen : values.length = uncertainties.length) :
    combineSum values uncertainties
      = .ok (values.sum, uncertainties.sum,
          if values.sum ≠ 0 then uncertainties.sum / |values.sum| else 0) := by
  unfold combineSum
  rw [if_neg (by push_neg; exact ⟨hne, hlen⟩)]

open scoped Classical in
/-- On a non-empty list with matching lengths the closed-form PRODUCT
returns the product and the guarded quadrature of relative
uncertainties. -/
lemma combineProduct_ok (values uncertainties : List ℝ)
    (hne : values ≠ []) (hlen : values.length = uncertainties.length) :
    combineProduct values uncertainties
      = .ok (values.prod,
          |values.prod| * Real.sqrt (((values.zip uncertainties).map
            fun p => if p.1 = 0 then 0 else (p.2 / |p.1|) ^ 2).sum),
          if values.prod ≠ 0
          then (|values.prod| * Real.sqrt (((values.zip uncertainties).map
            fun p => if p.1 = 0 then 0 else (p.2 / |p.1|) ^ 2).sum)) / |values.prod|
          else 0) := by
  unfold combineProduct
  rw [if_neg (by push_neg; exact ⟨hne, hlen⟩)]
  simp only [relFold_eq, zero_add, rpow_half_eq_sqrt]

open scoped Classical in
/-- Formula-mode propagation of the sum formula: the value is the sum of
the values and the absolute uncertainty is the quadrature of the
uncertainties. -/
lemma propagate_sumExpr (bs : List (String × ℝ × ℝ)) (hne : bs ≠ [])
    (hnd : (bs.map fun p => p.1).Nodup) :
    propagate (sumExpr (bs.map fun p => p.1)) bs
      = .ok ((bs.map fun p => p.2.1).sum,
          Real.sqrt ((bs.map fun p => p.2.2 ^ 2).sum),
          if (bs.map fun p => p.2.1).sum ≠ 0
          then Real.sqrt ((bs.map fun p => p.2.2 ^ 2).sum)
            / |(bs.map fun p => p.2.1).sum| else 0) := by
  have hone : ∀ p ∈ bs, eval (diffE (sumExpr (bs.map fun q => q.1)) p.1)
      (valueBindings bs) = .ok 1 := by
    intro p hp
    exact eval_diff_sumExpr _ hnd p.1 (List.mem_map_of_mem _ hp) _
  unfold propagate calculate_uncertainty
  rw [eval_sumExpr bs hnd hne]
  simp only [ok_bind, varianceFold_of_derivs_one _ _ bs 0 hone, pure_ok]
  simp [rpow_half_eq_sqrt, rpow_inv_two_eq_sqrt]

/-! ## The claims -/

/-- C1: for every expression and every bindings list, the code path
(`calculate_uncertainty` followed by the fractional-uncertainty step of
`main`) computes exactly the specified algorithm: the value by
evaluating the expression at the value-bindings, a variance that
accumulates `partial_x ^ 2 * uncertainty_x ^ 2` per bound variable with
no cross terms, `absoluteUncertainty = sqrt(varianceSum)`, and
`fractionalUncertainty = absoluteUncertainty / |value|` for `value ≠ 0`
and `0` otherwise. -/
theorem claim_C1_propagate_follows_spec (E : Expr) (bs : List (String × ℝ × ℝ)) :
    propagate E bs = propagateSpec E bs := by
  unfold propagate propagateSpec calculate_uncertainty
  cases h : eval E (valueBindings bs) with
  | error err => simp [h]
  | ok v =>
    simp only [h, ok_bind]
    rw [varianceFold_eq]
    cases h2 : evalDerivs E (valueBindings bs) bs with
    | error err => simp [h2, Except.map]
    | ok ds =>
      simp [h2, Except.map, rpow_half_eq_sqrt, rpow_inv_two_eq_sqrt]

/-- C2 (counterexample): for the constant expression `2.849` the constant
branch of equation mode returns the value unrounded, and rounding that
value to 3 significant figures would change it — so the claim that all
displayed components are rounded through `round_to_n_sig_figs` fails. -/
theorem claim_C2_counterexample :
    equationModeConst (Expr.num (2849/1000)) = .ok (((2849/1000 : ℚ) : ℝ), 0, 0) ∧
    ((round_to_n_sig_figs (2849/1000) 3 : ℚ) : ℝ) ≠ ((2849/1000 : ℚ) : ℝ) := by
  constructor
  · simp [equationModeConst, eval]
  · have hval : round_to_n_sig_figs (2849/1000) 3 = 57/20 := by
      rw [roundSig_of_ne_zero _ _ (by norm_num)]
      rw [show |(2849/1000:ℚ)| = 2849/1000 by norm_num]
      rw [show Int.log 10 (2849/1000 : ℚ) = 0 from
        log10_unique (by norm_num) (by norm_num) (by norm_num)]
      norm_num [rhe]
    rw [hval]
    norm_num

/-- C2 (amended): for every expression with no free variables, equation
mode returns the triple `(evaluated value, 0, 0)`; no significant-figure
rounding is applied to the components in this branch. -/
theorem claim_C2_const_branch (E : Expr) (v : ℝ)
    (hfree : freeVars E = []) (h : eval E [] = .ok v) :
    equationModeConst E = .ok (v, 0, 0) := by
  simp [equationModeConst, h]

theorem claim_C2_witness :
    freeVars (Expr.mul Expr.pi (Expr.num 2)) = [] ∧
    equationModeConst (Expr.mul Expr.pi (Expr.num 2)) = .ok (Real.pi * 2, 0, 0) :=
  ⟨rfl, claim_C2_const_branch _ _ rfl (by simp [eval])⟩

/-- C3: significant-figure rounding is idempotent — re-rounding an
already-rounded value at the same `n ≥ 1` is a no-op. -/
theorem claim_C3_roundSig_idempotent (v : ℚ) (n : ℕ) (hn : 1 ≤ n) :
    round_to_n_sig_figs (round_to_n_sig_figs v n) n = round_to_n_sig_figs v n := by
  rcases lt_trichotomy v 0 with hv | rfl | hv
  · have h1 : round_to_n_sig_figs v n = -round_to_n_sig_figs (-v) n := by
      rw [← roundSig_neg, neg_neg]
    rw [h1, roundSig_neg, roundSig_pos_idem hn (neg_pos.mpr hv)]
  · simp [round_to_n_sig_figs]
  · exact roundSig_pos_idem hn hv

theorem claim_C3_witness :
    1 ≤ 3 ∧ round_to_n_sig_figs (round_to_n_sig_figs 2.849 3) 3
      = round_to_n_sig_figs 2.849 3 :=
  ⟨by norm_num, claim_C3_roundSig_idempotent 2.849 3 (by norm_num)⟩

/-- C4: `round_to_n_sig_figs` returns `0` exactly at `0`, otherwise
rounds to `n - magnitude - 1` decimal places (with
`magnitude = floor(log10 |value|)`) using round-half-to-even; in
particular on `61.51`, `0.0001234` and `0` at 3 significant figures. -/
theorem claim_C4_roundSig_definition :
    (∀ (v : ℚ) (n : ℕ), round_to_n_sig_figs v n
        = if v = 0 then 0 else roundToPlaces v ((n:ℤ) - Int.log 10 |v| - 1)) ∧
    round_to_n_sig_figs 61.51 3 = 61.5 ∧
    round_to_n_sig_figs 0.0001234 3 = 0.000123 ∧
    round_to_n_sig_figs 0 3 = 0 := by
  refine ⟨fun v n => ?_, ?_, ?_, by simp [round_to_n_sig_figs]⟩
  · by_cases hv : v = 0
    · simp [hv, round_to_n_sig_figs]
    · rw [if_neg hv, roundSig_of_ne_zero _ _ hv]
      have h : (n:ℤ) - Int.log 10 |v| - 1 = (n:ℤ) - 1 - Int.log 10 |v| := by ring
      rw [h, roundToPlaces]
  · rw [roundSig_of_ne_zero _ _ (by norm_num)]
    rw [show |(61.51:ℚ)| = 6151/100 by norm_num]
    rw [show Int.log 10 (6151/100 : ℚ) = 1 from
      log10_unique (by norm_num) (by norm_num) (by norm_num)]
    norm_num [rhe]
  · rw [roundSig_of_ne_zero _ _ (by norm_num)]
    rw [show |(0.0001234:ℚ)| = 1234/10000000 by norm_num]
    rw [show Int.log 10 (1234/10000000 : ℚ) = -4 from
      log10_unique (by norm_num) (by norm_num) (by norm_num)]
    norm_num [rhe]

open scoped Classical in
/-- C5: on every non-empty pair of matching-length lists the closed-form
SUM returns the sum of the values and the direct (non-quadrature) sum of
the uncertainties. -/
theorem claim_C5_combineSum (values uncertainties : List ℝ)
    (hne : values ≠ []) (hlen : values.length = uncertainties.length) :
    combineSum values uncertainties
      = .ok (values.sum, uncertainties.sum,
          if values.sum ≠ 0 then uncertainties.sum / |values.sum| else 0) :=
  combineSum_ok values uncertainties hne hlen

theorem claim_C5_witness :
    combineSum [(1:ℝ), 2] [3, 4] = .ok (3, 7, 7/3) := by
  rw [claim_C5_combineSum [(1:ℝ), 2] [3, 4] (by simp) (by simp)]
  norm_num [abs_of_pos]

open scoped Classical in
/-- C6: on every non-empty pair of matching-length lists the closed-form
PRODUCT succeeds (never a domain failure, even with zero-valued terms):
the value is the product, the relative uncertainty is the quadrature of
`u_i / |v_i|` over the terms with `v_i ≠ 0` only, and the absolute
uncertainty is `|value|` times it. -/
theorem claim_C6_combineProduct (values uncertainties : List ℝ)
    (hne : values ≠ []) (hlen : values.length = uncertainties.length) :
    combineProduct values uncertainties
      = .ok (values.prod,
          |values.prod| * Real.sqrt (((values.zip uncertainties).map
            fun p => if p.1 = 0 then 0 else (p.2 / |p.1|) ^ 2).sum),
          if values.prod ≠ 0
          then (|values.prod| * Real.sqrt (((values.zip uncertainties).map
            fun p => if p.1 = 0 then 0 else (p.2 / |p.1|) ^ 2).sum)) / |values.prod|
          else 0) :=
  combineProduct_ok values uncertainties hne hlen

theorem claim_C6_witness :
    combineProduct [(0:ℝ), 5] [1, 0.5] = .ok (0, 0, 0) := by
  rw [claim_C6_combineProduct [(0:ℝ), 5] [1, 0.5] (by simp) (by simp)]
  norm_num

/-- C7 (counterexample): closed-form SUM and formula-mode SUM do not
produce the same triple: on values `[1, 1]` with uncertainties `[3, 4]`
the closed form returns absolute uncertainty `7 = 3 + 4` while formula
mode returns `5 = sqrt(3^2 + 4^2)`. -/
theorem claim_C7_counterexample :
    combineSum [(1:ℝ), 1] [3, 4] = .ok (2, 7, 7/2) ∧
    propagate (sumExpr ["x1", "x2"]) [("x1", (1:ℝ), (3:ℝ)), ("x2", 1, 4)]
      = .ok (2, 5, 5/2) ∧
    ((2:ℝ), (7:ℝ), (7:ℝ)/2) ≠ ((2:ℝ), (5:ℝ), (5:ℝ)/2) := by
  refine ⟨?_, ?_, by norm_num [Prod.ext_iff]⟩
  · rw [combineSum_ok [(1:ℝ), 1] [3, 4] (by simp) (by simp)]
    norm_num [abs_of_pos]
  · have h := propagate_sumExpr [("x1", (1:ℝ), (3:ℝ)), ("x2", 1, 4)]
      (by simp) (by simp)
    simp only [List.map_cons, List.map_nil, List.sum_cons, List.sum_nil] at h
    rw [h]
    have hsqrt : Real.sqrt ((3:ℝ) ^ 2 + ((4:ℝ) ^ 2 + 0)) = 5 := by
      rw [show (3:ℝ) ^ 2 + ((4:ℝ) ^ 2 + 0) = 5 ^ 2 by norm_num,
        Real.sqrt_sq (by norm_num : (0:ℝ) ≤ 5)]
    rw [hsqrt]
    norm_num [abs_of_pos]

open scoped Classical in
/-- C7 (amended): on every non-empty, duplicate-free binding list the two
paths agree on the value component (both the sum of the values), but the
absolute uncertainties differ in form: the closed form returns the
direct sum of the uncertainties while formula mode returns their
quadrature. -/
theorem claim_C7_sum_paths (bs : List (String × ℝ × ℝ)) (hne : bs ≠ [])
    (hnd : (bs.map fun p => p.1).Nodup) :
    combineSum (bs.map fun p => p.2.1) (bs.map fun p => p.2.2)
      = .ok ((bs.map fun p => p.2.1).sum, (bs.map fun p => p.2.2).sum,
          if (bs.map fun p => p.2.1).sum ≠ 0
          then (bs.map fun p => p.2.2).sum / |(bs.map fun p => p.2.1).sum| else 0) ∧
    propagate (sumExpr (bs.map fun p => p.1)) bs
      = .ok ((bs.map fun p => p.2.1).sum,
          Real.sqrt ((bs.map fun p => p.2.2 ^ 2).sum),
          if (bs.map fun p => p.2.1).sum ≠ 0
          then Real.sqrt ((bs.map fun p => p.2.2 ^ 2).sum)
            / |(bs.map fun p => p.2.1).sum| else 0) :=
  ⟨combineSum_ok _ _ (by simpa using hne) (by simp),
    propagate_sumExpr bs hne hnd⟩

theorem claim_C7_witness :
    combineSum [(2:ℝ)] [(3:ℝ)] = .ok (2, 3, 3/2) ∧
    propagate (sumExpr ["x"]) [("x", (2:ℝ), (3:ℝ))] = .ok (2, 3, 3/2) := by
  obtain ⟨h1, h2⟩ := claim_C7_sum_paths [("x", (2:ℝ), (3:ℝ))] (by simp) (by simp)
  simp only [List.map_cons, List.map_nil, List.sum_cons, List.sum_nil] at h1 h2
  constructor
  · rw [h1]
    norm_num [abs_of_pos]
  · rw [h2]
    have hsqrt : Real.sqrt ((3:ℝ) ^ 2 + 0) = 3 := by
      rw [show (3:ℝ) ^ 2 + 0 = 3 ^ 2 by norm_num,
        Real.sqrt_sq (by norm_num : (0:ℝ) ≤ 3)]
    rw [hsqrt]
    norm_num [abs_of_pos]

/-- C8: evaluating `1/x` at `x = 0` is undefined over the reals, so
formula-mode propagation fails with the domain error and returns no
partial result. -/
theorem claim_C8_division_by_zero :
    propagate (Expr.div (Expr.num 1) (Expr.var "x")) [("x", 0, 0.1)]
      = .error .domainError := by
  have h : eval (Expr.div (Expr.num 1) (Expr.var "x"))
      (valueBindings [("x", (0:ℝ), (0.1:ℝ))]) = .error .domainError := by
    simp [eval, valueBindings, lookup]
  simp [propagate, calculate_uncertainty, h]

/-- C9: the closed-form combiners require a non-empty value list and
matching lengths, and fail with the arity-mismatch error otherwise. -/
theorem claim_C9_arity_mismatch (values uncertainties : List ℝ)
    (h : values = [] ∨ values.length ≠ uncertainties.length) :
    combineSum values uncertainties = .error .arityMismatch ∧
    combineProduct values uncertainties = .error .arityMismatch :=
  ⟨by unfold combineSum; rw [if_pos h], by unfold combineProduct; rw [if_pos h]⟩

theorem claim_C9_witness :
    (([(1:ℝ), 2, 3] : List ℝ) = []
      ∨ ([(1:ℝ), 2, 3] : List ℝ).length ≠ ([0.1, 0.2] : List ℝ).length) ∧
    combineSum [(1:ℝ), 2, 3] [0.1, 0.2] = .error .arityMismatch :=
  ⟨Or.inr (by simp), (claim_C9_arity_mismatch [(1:ℝ), 2, 3] [0.1, 0.2]
    (Or.inr (by simp))).1⟩

/-- C10: `calculate_uncertainty` depends only on the magnitude of each
uncertainty: negating any one uncertainty changes neither the computed
value nor the absolute uncertainty, because each variance term enters
squared. -/
theorem claim_C10_sign_invariance (E : Expr) (pre post : List (String × ℝ × ℝ))
    (x : String) (v u : ℝ) :
    calculate_uncertainty E (pre ++ (x, v, -u) :: post)
      = calculate_uncertainty E (pre ++ (x, v, u) :: post) := by
  unfold calculate_uncertainty
  rw [valueBindings_signflip pre post x v (-u) u,
    ← varianceFold_signflip E (valueBindings (pre ++ (x, v, u) :: post)) x v u post pre 0]

end UncertaintyCalc
